import Mathlib

/-!
Shallow embedding of `src/hitBar.py` (class `hitBar`), a stateful
line-crossing counter.  Numeric idealization: the numpy float32 arithmetic
of the source is modelled by exact rational arithmetic.  The source's
endpoints are typed `Tuple[int,int]`, so the degeneracy test
`np.linalg.norm(n) < 1e-6` holds exactly when `dx = dy = 0`; the
normalization `n / norm_n` divides by the euclidean norm, which the
embedding passes in as a parameter `L` (theorems that depend on its value
constrain it by `L ^ 2 = dx ^ 2 + dy ^ 2` and `0 ≤ L`).  Fallible
operations (Python retrieving a missing index or key) are modelled with
`Except Unit`.  Rendering calls go to cv2, an external backend, and are
recorded symbolically in the `Img` type.
-/

/-- A 4-vertex polygon, in the vertex order the code stores it. -/
structure Quad where
  p0 : ℚ × ℚ
  p1 : ℚ × ℚ
  p2 : ℚ × ℚ
  p3 : ℚ × ℚ
  deriving DecidableEq

/-- Symbolic image values: the drawing calls `update` makes are recorded as
constructors rather than pixel operations.  `input` stands for the
caller-supplied image (`img.copy()` copies its contents, so drawing on the
copy produces a new node over the same base). -/
inductive Img where
  | input : Img
  | fillPoly (base : Img) (poly : Quad) (color : ℤ × ℤ × ℤ × ℤ) : Img
  | addWeighted (a : Img) (alpha : ℚ) (b : Img) (beta : ℚ) (gamma : ℚ) : Img
  | line (base : Img) (p q : ℚ × ℚ) (color : ℤ × ℤ × ℤ) (thickness : ℤ) : Img
  deriving DecidableEq

/-- One detection record (the `detailedResult` dict): `.get("labels", [])`,
`.get("IDs", [])`, `.get("midPoints", [])` default to empty lists, and the
optional `"numProjection"` key maps category names to lists of
(identity, tag) pairs. -/
structure Frame where
  labels : List String
  IDs : List ℤ
  midPoints : List (ℚ × ℚ)
  numProjection : Option (List (String × List (ℤ × ℤ)))
  deriving DecidableEq

/-- The mutable state of a `hitBar` instance. -/
structure hitBar where
  name : String
  visualize : Bool
  startPoint : ℚ × ℚ
  endPoint : ℚ × ℚ
  maxLength : ℤ
  width : ℚ
  direction : ℚ × ℚ
  realmIn : Quad
  realmOut : Quad
  history : List Frame
  Accumulator : List (String × ℤ)
  monitoredCatagories : List String
  deriving DecidableEq

/-- Minimum of two rationals (spelled out so that it evaluates). -/
def qmin (a b : ℚ) : ℚ := if a ≤ b then a else b

/-- Maximum of two rationals (spelled out so that it evaluates). -/
def qmax (a b : ℚ) : ℚ := if a ≤ b then b else a

/-- Point `p` lies on the closed segment from `a` to `b`: zero cross
product plus bounding-box membership. -/
def onSeg (a b p : ℚ × ℚ) : Bool :=
  decide ((b.1 - a.1) * (p.2 - a.2) - (b.2 - a.2) * (p.1 - a.1) = 0
    ∧ qmin a.1 b.1 ≤ p.1 ∧ p.1 ≤ qmax a.1 b.1
    ∧ qmin a.2 b.2 ≤ p.2 ∧ p.2 ≤ qmax a.2 b.2)

/-- One step of even-odd ray casting: the horizontal ray from `p` crosses
the open edge from `vi` to `vj`. -/
def edgeCross (vi vj p : ℚ × ℚ) : Bool :=
  (decide (p.2 < vi.2) != decide (p.2 < vj.2))
    && decide (p.1 < vi.1 + (vj.1 - vi.1) * (p.2 - vi.2) / (vj.2 - vi.2))

/-- Point `p` lies on one of the four edges of `q`. -/
def onQuadEdge (p : ℚ × ℚ) (q : Quad) : Bool :=
  onSeg q.p0 q.p1 p || onSeg q.p1 q.p2 p || onSeg q.p2 q.p3 p || onSeg q.p3 q.p0 p

/-- Modelled from the spec: `_inRealm` delegates to
`cv2.pointPolygonTest(contour, (px, py), False) >= 0`, an external library
routine that is not part of this repository.  Per the spec (section 4.2)
it is a standard point-in-polygon test over the 4 ordered vertices,
boundary-inclusive: a point exactly on an edge counts as inside.  The
embedding uses even-odd ray casting for the interior plus an explicit
boundary test, which agrees with the cv2 routine on these polygons
(cv2 returns 0 on the contour and otherwise counts ray crossings). -/
def inRealm (p : ℚ × ℚ) (q : Quad) : Bool :=
  onQuadEdge p q
    || Bool.xor (edgeCross q.p0 q.p1 p)
        (Bool.xor (edgeCross q.p1 q.p2 p)
          (Bool.xor (edgeCross q.p2 q.p3 p) (edgeCross q.p3 q.p0 p)))

/-- `np.int32` conversion truncates toward zero: for a rational with a
positive denominator that is truncating integer division. -/
def truncQ (x : ℚ) : ℤ := Int.tdiv x.num (x.den : ℤ)

/-- The realm corners are cast with `np.int32` before being handed to the
drawing backend. -/
def quadToInt (q : Quad) : Quad :=
  ⟨((truncQ q.p0.1 : ℚ), (truncQ q.p0.2 : ℚ)),
   ((truncQ q.p1.1 : ℚ), (truncQ q.p1.2 : ℚ)),
   ((truncQ q.p2.1 : ℚ), (truncQ q.p2.2 : ℚ)),
   ((truncQ q.p3.1 : ℚ), (truncQ q.p3.2 : ℚ))⟩

/-- Dict lookup in `self.Accumulator` (first entry with the key). -/
def accLookup : List (String × ℤ) → String → Option ℤ
  | [], _ => none
  | kv :: rest, c => if kv.1 = c then some kv.2 else accLookup rest c

/-- Dict assignment to an existing key of `self.Accumulator`. -/
def accSet : List (String × ℤ) → String → ℤ → List (String × ℤ)
  | [], _, _ => []
  | kv :: rest, c, v => if kv.1 = c then (kv.1, v) :: rest else kv :: accSet rest c v

/-- `numInCat` resolution for the current frame:
`arr = [x[1] for x in detailedResult["numProjection"][cat] if x[0] == objID]`
after checking `"numProjection" in detailedResult and cat in ...`; the tag
is `arr[0]` when `arr` is nonempty, else it stays `None`. -/
def resolveTag (fr : Frame) (cat : String) (objID : ℤ) : Option ℤ :=
  match fr.numProjection with
  | none => none
  | some np =>
    match np.find? (fun kv => decide (kv.1 = cat)) with
    | none => none
    | some kv => ((kv.2.filter (fun x => decide (x.1 = objID))).map Prod.snd).head?

/-- `[x[1] for x in pastFrame["numProjection"].get(cat, []) if x[0] == objID]`. -/
def tagArr (np : List (String × List (ℤ × ℤ))) (cat : String) (objID : ℤ) : List ℤ :=
  match np.find? (fun kv => decide (kv.1 = cat)) with
  | none => []
  | some kv => (kv.2.filter (fun x => decide (x.1 = objID))).map Prod.snd

/-- The disambiguator rejection in `_hasIn`: only checked when the past
frame has a `"numProjection"` key and the current entry resolved a tag;
the candidate is skipped (`continue`) when the past tag list for the
identity is empty or its first entry differs. -/
def tagRejected (past : Frame) (cat : String) (objID : ℤ) (numInCat : Option ℤ) : Bool :=
  match past.numProjection, numInCat with
  | some np, some t => decide ((tagArr np cat objID).head? ≠ some t)
  | _, _ => false

/-- `_monitor`: ensure a zero counter for each new category, then
`self.monitoredCatagories = list(set(self.monitoredCatagories + categories))`.
Python's `set` iteration order is unspecified; the embedding fixes an
order with `dedup`, and only membership in the result is observable
(the code tests `cat not in self.monitoredCatagories`). -/
def hitBar.monitor (s : hitBar) (categories : List String) : hitBar :=
  { s with
    Accumulator := categories.foldl
      (fun acc c => if (accLookup acc c).isSome then acc else acc ++ [(c, 0)]) s.Accumulator
    monitoredCatagories := (s.monitoredCatagories ++ categories).dedup }

/-- `__init__`.  `not startPoint or not endPoint` is true exactly when one
of the optional endpoints is absent (an integer pair such as `(0, 0)` is a
non-empty tuple, hence truthy); in that case both endpoints are defaulted
from `imgSize`, and a missing `imgSize` raises (`self.imgSize[0]` on
`None`).  `L` stands for `np.linalg.norm((-dy, dx))`; the degeneracy test
`norm < 1e-6` is exact for integer endpoints as `dx = 0 ∧ dy = 0`. -/
def hitBar.init (imgSize : Option (ℤ × ℤ)) (startPoint endPoint : Option (ℤ × ℤ))
    (name : String) (monitor : List String) (width : ℚ) (maxLength : ℤ)
    (visualize : Bool) (L : ℚ) : Except Unit hitBar :=
  match (match startPoint, endPoint with
         | some sp, some ep => Except.ok (sp, ep)
         | _, _ =>
           match imgSize with
           | none => Except.error ()
           | some sz => Except.ok (((0 : ℤ), Int.fdiv sz.1 2), (sz.2, Int.fdiv sz.1 2))) with
  | Except.error e => Except.error e
  | Except.ok spep =>
    let A : ℚ × ℚ := ((spep.1.1 : ℚ), (spep.1.2 : ℚ))
    let B : ℚ × ℚ := ((spep.2.1 : ℚ), (spep.2.2 : ℚ))
    let dx : ℚ := B.1 - A.1
    let dy : ℚ := B.2 - A.2
    let s0 : hitBar :=
      if dx = 0 ∧ dy = 0 then
        { name := name, visualize := visualize, startPoint := A, endPoint := B,
          maxLength := maxLength, width := width, direction := (0, 0),
          realmIn := ⟨A, A, A, A⟩, realmOut := ⟨B, B, B, B⟩,
          history := [], Accumulator := [], monitoredCatagories := [] }
      else
        let d : ℚ × ℚ := (-dy / L, dx / L)
        let offIn : ℚ × ℚ := (-width * d.1, -width * d.2)
        let offOut : ℚ × ℚ := (width * d.1, width * d.2)
        let AIn : ℚ × ℚ := (A.1 + offIn.1, A.2 + offIn.2)
        let BIn : ℚ × ℚ := (B.1 + offIn.1, B.2 + offIn.2)
        let AOut : ℚ × ℚ := (A.1 + offOut.1, A.2 + offOut.2)
        let BOut : ℚ × ℚ := (B.1 + offOut.1, B.2 + offOut.2)
        { name := name, visualize := visualize, startPoint := A, endPoint := B,
          maxLength := maxLength, width := width, direction := d,
          realmIn := ⟨A, B, BIn, AIn⟩, realmOut := ⟨A, B, BOut, AOut⟩,
          history := [], Accumulator := [], monitoredCatagories := [] }
    Except.ok (if monitor.isEmpty then s0 else hitBar.monitor s0 monitor)

/-- `update` begins by appending the frame and popping the oldest one when
the bound is exceeded. -/
def pushHist (h : List Frame) (maxLength : ℤ) (dr : Frame) : List Frame :=
  let h1 := h ++ [dr]
  if (h1.length : ℤ) > maxLength then h1.tail else h1

/-- The realm recomputation at the top of `update`:
`realmIn = [AIn, BIn, B, A]` on the negative side of `direction`. -/
def recompRealmIn (s : hitBar) : Quad :=
  let A := s.startPoint
  let B := s.endPoint
  let offIn : ℚ × ℚ := (-s.width * s.direction.1, -s.width * s.direction.2)
  ⟨(A.1 + offIn.1, A.2 + offIn.2), (B.1 + offIn.1, B.2 + offIn.2), B, A⟩

/-- The realm recomputation at the top of `update`:
`realmOut = [AOut, BOut, B, A]` on the positive side of `direction`. -/
def recompRealmOut (s : hitBar) : Quad :=
  let A := s.startPoint
  let B := s.endPoint
  let offOut : ℚ × ℚ := (s.width * s.direction.1, s.width * s.direction.2)
  ⟨(A.1 + offOut.1, A.2 + offOut.2), (B.1 + offOut.1, B.2 + offOut.2), B, A⟩

/-- The rendering block of `update`: both realms are filled on an overlay
copy and alpha-blended into the output unconditionally (`alpha = 0.4`);
only the centerline draw is guarded by `self.visualize`. -/
def imgOutOf (s : hitBar) (img : Img) : Img :=
  let overlay := Img.fillPoly (Img.fillPoly img (quadToInt (recompRealmIn s)) (0, 0, 255, 100))
      (quadToInt (recompRealmOut s)) (255, 0, 0, 100)
  let blended := Img.addWeighted overlay (2 / 5) img (1 - 2 / 5) 0
  if s.visualize then Img.line blended s.startPoint s.endPoint (0, 0, 255) 2 else blended

/-- The identity fallback rule used both in `update` and `_hasIn`:
`ids[i] if len(ids) == len(labs) else i`. -/
def fallbackID (IDs : List ℤ) (labels : List String) (i : ℕ) : ℤ :=
  if IDs.length = labels.length then IDs.getD i 0 else (i : ℤ)

/-- The candidate scan in `_hasIn`: `for i, lb in enumerate(labs)`.  The
index travels with the remaining label list.  `mids[i]` raises when the
past frame's midpoint list is too short. -/
def hasInScan (s : hitBar) (pt : ℚ × ℚ) (cat : String) (objID : ℤ)
    (numInCat : Option ℤ) (past : Frame) : ℕ → List String → Except Unit (Bool × hitBar)
  | _, [] => Except.ok (false, s)
  | i, lb :: rest =>
    if lb = cat then
      if fallbackID past.IDs past.labels i = objID then
        if tagRejected past cat objID numInCat then
          hasInScan s pt cat objID numInCat past (i + 1) rest
        else
          match past.midPoints.get? i with
          | none => Except.error ()
          | some oldPt =>
            if inRealm oldPt s.realmIn then
              Except.ok (true,
                { s with direction :=
                    ((1 / 2) * (s.direction.1 + (pt.1 - oldPt.1)),
                     (1 / 2) * (s.direction.2 + (pt.2 - oldPt.2))) })
            else hasInScan s pt cat objID numInCat past (i + 1) rest
      else hasInScan s pt cat objID numInCat past (i + 1) rest
    else hasInScan s pt cat objID numInCat past (i + 1) rest

/-- `_hasIn`: `self.history[-2]` (the frame before the one just appended)
raises `IndexError` when fewer than two frames are retained, which the
method catches and turns into `False`; a frame whose label list lacks the
category also yields `False`. -/
def hasIn (s : hitBar) (pt : ℚ × ℚ) (cat : String) (objID : ℤ) (numInCat : Option ℤ) :
    Except Unit (Bool × hitBar) :=
  if s.history.length < 2 then Except.ok (false, s)
  else
    match s.history.get? (s.history.length - 2) with
    | none => Except.ok (false, s)
    | some past =>
      if cat ∈ past.labels then hasInScan s pt cat objID numInCat past 0 past.labels
      else Except.ok (false, s)

/-- One iteration of the detection loop in `update`.  `labels[idx]` raises
when the label list is shorter than the midpoint list; the identity falls
back to the positional index when the ID list length mismatches; a
confirmed crossing increments `self.Accumulator[cat]`, which raises
`KeyError` when the key is absent. -/
def processIdx (s : hitBar) (dr : Frame) (idx : ℕ) (pt : ℚ × ℚ) : Except Unit hitBar :=
  match dr.labels.get? idx with
  | none => Except.error ()
  | some cat =>
    if cat ∈ s.monitoredCatagories then
      let objID : ℤ := fallbackID dr.IDs dr.labels idx
      let numInCat := resolveTag dr cat objID
      if inRealm pt s.realmOut then
        match hasIn s pt cat objID numInCat with
        | Except.error e => Except.error e
        | Except.ok (found, s') =>
          if found then
            match accLookup s'.Accumulator cat with
            | none => Except.error ()
            | some v => Except.ok { s' with Accumulator := accSet s'.Accumulator cat (v + 1) }
          else Except.ok s'
      else Except.ok s
    else Except.ok s

/-- `for idx, pt in enumerate(midPoints)`. -/
def runEntries (dr : Frame) : hitBar → ℕ → List (ℚ × ℚ) → Except Unit hitBar
  | s, _, [] => Except.ok s
  | s, idx, pt :: rest =>
    match processIdx s dr idx pt with
    | Except.error e => Except.error e
    | Except.ok s' => runEntries dr s' (idx + 1) rest

/-- `update(img, detailedResult)`: push history, recompute realms, render,
run the detection loop, and return the output image together with the
state whose `Accumulator` is the returned (live) counter mapping. -/
def hitBar.update (s : hitBar) (img : Img) (dr : Frame) : Except Unit (hitBar × Img) :=
  let s1 := { s with history := pushHist s.history s.maxLength dr,
                     realmIn := recompRealmIn s, realmOut := recompRealmOut s }
  let io := imgOutOf s img
  match runEntries dr s1 0 dr.midPoints with
  | Except.error e => Except.error e
  | Except.ok s2 => Except.ok (s2, io)

/-- A finite sequence of `update` calls in arrival order. -/
def runUpdates (s : hitBar) : List (Img × Frame) → Except Unit hitBar
  | [] => Except.ok s
  | imfr :: rest =>
    match hitBar.update s imfr.1 imfr.2 with
    | Except.error e => Except.error e
    | Except.ok r => runUpdates r.1 rest

/-- `update` ran to completion without raising. -/
def updateOk (s : hitBar) (img : Img) (dr : Frame) : Bool :=
  match hitBar.update s img dr with
  | Except.ok _ => true
  | Except.error _ => false

/-- Construction ran without raising. -/
def initOk (imgSize : Option (ℤ × ℤ)) (startPoint endPoint : Option (ℤ × ℤ))
    (name : String) (monitor : List String) (width : ℚ) (maxLength : ℤ)
    (visualize : Bool) (L : ℚ) : Bool :=
  match hitBar.init imgSize startPoint endPoint name monitor width maxLength visualize L with
  | Except.ok _ => true
  | Except.error _ => false

/-! Helper lemmas characterizing the embedded operations. -/

theorem accLookup_append {acc : List (String × ℤ)} {c : String} {v : ℤ}
    (l : List (String × ℤ)) (h : accLookup acc c = some v) :
    accLookup (acc ++ l) c = some v := by
  induction acc with
  | nil => simp [accLookup] at h
  | cons kv rest ih =>
    simp only [List.cons_append, accLookup] at h ⊢
    by_cases hc : kv.1 = c
    · simpa [hc] using h
    · simp only [hc, if_false] at h ⊢
      exact ih h

theorem accLookup_append_new {acc : List (String × ℤ)} {c : String} {v : ℤ}
    (h : accLookup acc c = none) : accLookup (acc ++ [(c, v)]) c = some v := by
  induction acc with
  | nil => simp [accLookup]
  | cons kv rest ih =>
    simp only [List.cons_append, accLookup] at h ⊢
    by_cases hc : kv.1 = c
    · simp [hc] at h
    · simp only [hc, if_false] at h ⊢
      exact ih h

theorem accLookup_monitorFold {c : String} {v : ℤ} :
    ∀ (cats : List String) (acc : List (String × ℤ)), accLookup acc c = some v →
      accLookup (cats.foldl
        (fun acc c' => if (accLookup acc c').isSome then acc else acc ++ [(c', 0)]) acc) c
      = some v := by
  intro cats
  induction cats with
  | nil => intro acc h; simpa using h
  | cons c' rest ih =>
    intro acc h
    simp only [List.foldl_cons]
    refine ih _ ?_
    by_cases hs : (accLookup acc c').isSome
    · simpa [hs] using h
    · simp only [hs, if_false]
      exact accLookup_append _ h

theorem accLookup_accSet_self {acc : List (String × ℤ)} {c : String} {v : ℤ} (w : ℤ)
    (h : accLookup acc c = some v) : accLookup (accSet acc c w) c = some w := by
  induction acc with
  | nil => simp [accLookup] at h
  | cons kv rest ih =>
    simp only [accLookup] at h
    by_cases hc : kv.1 = c
    · rw [show accSet (kv :: rest) c w = (kv.1, w) :: rest from by simp [accSet, hc]]
      simp [accLookup, hc]
    · rw [show accSet (kv :: rest) c w = kv :: accSet rest c w from by simp [accSet, hc]]
      simp only [accLookup, hc, if_false] at h ⊢
      exact ih h

theorem accLookup_accSet_ne (acc : List (String × ℤ)) (c : String) (v : ℤ) {c' : String}
    (h : c' ≠ c) : accLookup (accSet acc c v) c' = accLookup acc c' := by
  induction acc with
  | nil => simp [accSet]
  | cons kv rest ih =>
    by_cases hc : kv.1 = c
    · rw [show accSet (kv :: rest) c v = (kv.1, v) :: rest from by simp [accSet, hc]]
      have h1 : kv.1 ≠ c' := fun hx => h (hx.symm.trans hc)
      simp [accLookup, h1]
    · rw [show accSet (kv :: rest) c v = kv :: accSet rest c v from by simp [accSet, hc]]
      simp only [accLookup]
      by_cases hc' : kv.1 = c'
      · simp [hc']
      · simp [hc', ih]

theorem accSet_isSome (acc : List (String × ℤ)) (c : String) (v : ℤ) (c' : String) :
    (accLookup (accSet acc c v) c').isSome = (accLookup acc c').isSome := by
  induction acc with
  | nil => simp [accSet]
  | cons kv rest ih =>
    by_cases hc : kv.1 = c
    · rw [show accSet (kv :: rest) c v = (kv.1, v) :: rest from by simp [accSet, hc]]
      simp only [accLookup]
      by_cases hc' : kv.1 = c'
      · simp [hc']
      · simp [hc']
    · rw [show accSet (kv :: rest) c v = kv :: accSet rest c v from by simp [accSet, hc]]
      simp only [accLookup]
      by_cases hc' : kv.1 = c'
      · simp [hc']
      · simp [hc', ih]

/-- Blend of the stored direction toward the displacement from `oldPt` to
`pt`, as assigned by `_hasIn` on a confirmed match. -/
def blendDir (s : hitBar) (pt oldPt : ℚ × ℚ) : ℚ × ℚ :=
  ((1 / 2) * (s.direction.1 + (pt.1 - oldPt.1)),
   (1 / 2) * (s.direction.2 + (pt.2 - oldPt.2)))

theorem hasInScan_ok {s : hitBar} {pt : ℚ × ℚ} {cat : String} {objID : ℤ}
    {t : Option ℤ} {past : Frame} :
    ∀ {rest : List String} {i : ℕ} {b : Bool} {s₂ : hitBar},
      hasInScan s pt cat objID t past i rest = Except.ok (b, s₂) →
      (b = false ∧ s₂ = s) ∨
      (b = true ∧ ∃ j oldPt, past.midPoints.get? j = some oldPt
        ∧ inRealm oldPt s.realmIn = true
        ∧ s₂ = { s with direction := blendDir s pt oldPt }) := by
  intro rest
  induction rest with
  | nil =>
    intro i b s₂ h
    simp only [hasInScan] at h
    cases h
    exact Or.inl ⟨rfl, rfl⟩
  | cons lb rest ih =>
    intro i b s₂ h
    simp only [hasInScan] at h
    split at h
    case isTrue hlb =>
      split at h
      case isTrue hid =>
        split at h
        case isTrue hrej => exact ih h
        case isFalse hrej =>
          split at h
          case h_1 => exact Except.noConfusion h
          case h_2 oldPt hget =>
            split at h
            case isTrue hin =>
              cases h
              exact Or.inr ⟨rfl, i, oldPt, hget, hin, rfl⟩
            case isFalse hin => exact ih h
      case isFalse hid => exact ih h
    case isFalse hlb => exact ih h

theorem hasIn_ok {s : hitBar} {pt : ℚ × ℚ} {cat : String} {objID : ℤ} {t : Option ℤ}
    {b : Bool} {s₂ : hitBar} (h : hasIn s pt cat objID t = Except.ok (b, s₂)) :
    (b = false ∧ s₂ = s) ∨
    (b = true ∧ ∃ past j oldPt,
      s.history.get? (s.history.length - 2) = some past
      ∧ past.midPoints.get? j = some oldPt
      ∧ inRealm oldPt s.realmIn = true
      ∧ s₂ = { s with direction := blendDir s pt oldPt }) := by
  unfold hasIn at h
  split at h
  · cases h; exact Or.inl ⟨rfl, rfl⟩
  · split at h
    case h_1 => cases h; exact Or.inl ⟨rfl, rfl⟩
    case h_2 past hget =>
      split at h
      · rcases hasInScan_ok h with ⟨hb, hs⟩ | ⟨hb, j, oldPt, hj, hin, hs⟩
        · exact Or.inl ⟨hb, hs⟩
        · exact Or.inr ⟨hb, past, j, oldPt, hget, hj, hin, hs⟩
      · cases h; exact Or.inl ⟨rfl, rfl⟩

theorem processIdx_cases {s : hitBar} {dr : Frame} {idx : ℕ} {pt : ℚ × ℚ} {s' : hitBar}
    (h : processIdx s dr idx pt = Except.ok s') :
    s' = s ∨
    ∃ cat v past j oldPt,
      dr.labels.get? idx = some cat ∧ cat ∈ s.monitoredCatagories
      ∧ inRealm pt s.realmOut = true
      ∧ s.history.get? (s.history.length - 2) = some past
      ∧ past.midPoints.get? j = some oldPt
      ∧ inRealm oldPt s.realmIn = true
      ∧ accLookup s.Accumulator cat = some v
      ∧ s' = { s with direction := blendDir s pt oldPt
                      Accumulator := accSet s.Accumulator cat (v + 1) } := by
  unfold processIdx at h
  split at h
  case h_1 => exact Except.noConfusion h
  case h_2 cat hcat =>
    split at h
    case isTrue hmon =>
      split at h
      case isTrue hout =>
        dsimp only at h
        split at h
        case h_1 => exact Except.noConfusion h
        case h_2 found s₂ hhas =>
          split at h
          case isTrue hfound =>
            split at h
            case h_1 => exact Except.noConfusion h
            case h_2 v hv =>
              cases h
              rcases hasIn_ok hhas with ⟨hb, _⟩ | ⟨_, past, j, oldPt, hget, hj, hin, hs⟩
              · exact absurd hb (by simp [hfound])
              · subst hs
                exact Or.inr ⟨cat, v, past, j, oldPt, hcat, hmon, hout, hget, hj, hin, hv, rfl⟩
          case isFalse hfound =>
            cases h
            rcases hasIn_ok hhas with ⟨_, hs⟩ | ⟨hb, _⟩
            · exact Or.inl hs
            · exact absurd hb (by simp [hfound])
      case isFalse hout => cases h; exact Or.inl rfl
    case isFalse hmon => cases h; exact Or.inl rfl

/-- The per-entry step can only change `direction` and `Accumulator`; every
other field, in particular the history and geometry, is untouched, and the
set of categories with an accumulator entry is unchanged. -/
theorem processIdx_frame {s : hitBar} {dr : Frame} {idx : ℕ} {pt : ℚ × ℚ} {s' : hitBar}
    (h : processIdx s dr idx pt = Except.ok s') :
    s'.history = s.history ∧ s'.startPoint = s.startPoint ∧ s'.endPoint = s.endPoint
    ∧ s'.realmIn = s.realmIn ∧ s'.realmOut = s.realmOut ∧ s'.maxLength = s.maxLength
    ∧ s'.width = s.width ∧ s'.monitoredCatagories = s.monitoredCatagories
    ∧ s'.visualize = s.visualize
    ∧ ∀ c, (accLookup s'.Accumulator c).isSome = (accLookup s.Accumulator c).isSome := by
  rcases processIdx_cases h with rfl | ⟨cat, v, past, j, oldPt, _, _, _, _, _, _, hv, rfl⟩
  · exact ⟨rfl, rfl, rfl, rfl, rfl, rfl, rfl, rfl, rfl, fun _ => rfl⟩
  · exact ⟨rfl, rfl, rfl, rfl, rfl, rfl, rfl, rfl, rfl,
      fun c => accSet_isSome s.Accumulator cat (v + 1) c⟩

theorem runEntries_frame {dr : Frame} :
    ∀ {pts : List (ℚ × ℚ)} {idx : ℕ} {s s' : hitBar},
      runEntries dr s idx pts = Except.ok s' →
      s'.history = s.history ∧ s'.startPoint = s.startPoint ∧ s'.endPoint = s.endPoint
      ∧ s'.realmIn = s.realmIn ∧ s'.realmOut = s.realmOut ∧ s'.maxLength = s.maxLength
      ∧ s'.width = s.width ∧ s'.monitoredCatagories = s.monitoredCatagories
      ∧ s'.visualize = s.visualize
      ∧ ∀ c, (accLookup s'.Accumulator c).isSome = (accLookup s.Accumulator c).isSome := by
  intro pts
  induction pts with
  | nil =>
    intro idx s s' h
    simp only [runEntries] at h
    cases h
    exact ⟨rfl, rfl, rfl, rfl, rfl, rfl, rfl, rfl, rfl, fun _ => rfl⟩
  | cons pt rest ih =>
    intro idx s s' h
    simp only [runEntries] at h
    split at h
    case h_1 => exact Except.noConfusion h
    case h_2 s₁ hstep =>
      obtain ⟨h1, h2, h3, h4, h5, h6, h7, h8, h9, h10⟩ := processIdx_frame hstep
      obtain ⟨g1, g2, g3, g4, g5, g6, g7, g8, g9, g10⟩ := ih h
      exact ⟨g1.trans h1, g2.trans h2, g3.trans h3, g4.trans h4, g5.trans h5,
        g6.trans h6, g7.trans h7, g8.trans h8, g9.trans h9,
        fun c => (g10 c).trans (h10 c)⟩

/-- What one `update` call does to everything except the counters:
history is pushed with FIFO eviction, the realms are recomputed from the
current geometry, the output image is the rendering of the input, and all
configuration fields survive unchanged. -/
theorem update_ok_spec {s : hitBar} {img : Img} {dr : Frame} {s' : hitBar} {io : Img}
    (h : hitBar.update s img dr = Except.ok (s', io)) :
    io = imgOutOf s img
    ∧ s'.history = pushHist s.history s.maxLength dr
    ∧ s'.startPoint = s.startPoint ∧ s'.endPoint = s.endPoint
    ∧ s'.realmIn = recompRealmIn s ∧ s'.realmOut = recompRealmOut s
    ∧ s'.maxLength = s.maxLength ∧ s'.width = s.width
    ∧ s'.monitoredCatagories = s.monitoredCatagories ∧ s'.visualize = s.visualize
    ∧ ∀ c, (accLookup s'.Accumulator c).isSome = (accLookup s.Accumulator c).isSome := by
  unfold hitBar.update at h
  dsimp only at h
  split at h
  case h_1 => exact Except.noConfusion h
  case h_2 s₂ hrun =>
    cases h
    obtain ⟨h1, h2, h3, h4, h5, h6, h7, h8, h9, h10⟩ := runEntries_frame hrun
    exact ⟨rfl, h1, h2, h3, h4, h5, h6, h7, h8, h9, h10⟩

theorem pushHist_suffix (h : List Frame) (m : ℤ) (dr : Frame) :
    List.IsSuffix (pushHist h m dr) (h ++ [dr]) := by
  unfold pushHist
  dsimp only
  split
  · simpa using List.drop_suffix 1 (h ++ [dr])
  · exact List.suffix_refl _

theorem pushHist_length_le {h : List Frame} {m : ℤ} (dr : Frame)
    (hlen : (h.length : ℤ) ≤ m) :
    ((pushHist h m dr).length : ℤ) ≤ m := by
  unfold pushHist
  dsimp only
  split
  case isTrue hgt =>
    simp only [List.length_tail, List.length_append, List.length_singleton]
    push_cast
    omega
  case isFalse hle =>
    simp only [List.length_append, List.length_singleton] at hle ⊢
    push_cast at hle ⊢
    omega

theorem hasInScan_isOk {s : hitBar} {pt : ℚ × ℚ} {cat : String} {objID : ℤ}
    {t : Option ℤ} {past : Frame} (hlen : past.labels.length ≤ past.midPoints.length) :
    ∀ (rest : List String) (i : ℕ), i + rest.length = past.labels.length →
      ∃ r, hasInScan s pt cat objID t past i rest = Except.ok r := by
  intro rest
  induction rest with
  | nil => intro i hi; exact ⟨(false, s), rfl⟩
  | cons lb rest ih =>
    intro i hi
    simp only [List.length_cons] at hi
    simp only [hasInScan]
    split
    · split
      · split
        · exact ih (i + 1) (by omega)
        · cases hm : past.midPoints.get? i with
          | none =>
            exfalso
            have hnone := List.get?_eq_none.mp hm
            omega
          | some oldPt =>
            dsimp only
            split
            · exact ⟨_, rfl⟩
            · exact ih (i + 1) (by omega)
      · exact ih (i + 1) (by omega)
    · exact ih (i + 1) (by omega)

theorem hasIn_isOk {s : hitBar} {pt : ℚ × ℚ} {cat : String} {objID : ℤ} {t : Option ℤ}
    (hh : ∀ f ∈ s.history, f.labels.length ≤ f.midPoints.length) :
    ∃ r, hasIn s pt cat objID t = Except.ok r := by
  unfold hasIn
  split
  · exact ⟨_, rfl⟩
  · split
    case h_1 => exact ⟨_, rfl⟩
    case h_2 past hget =>
      split
      · exact hasInScan_isOk (hh past (List.get?_mem hget)) past.labels 0 (by simp)
      · exact ⟨_, rfl⟩

theorem processIdx_isOk {s : hitBar} {dr : Frame} {idx : ℕ} {pt : ℚ × ℚ}
    (hidx : idx < dr.labels.length)
    (hh : ∀ f ∈ s.history, f.labels.length ≤ f.midPoints.length)
    (hacc : ∀ c ∈ s.monitoredCatagories, (accLookup s.Accumulator c).isSome = true) :
    ∃ r, processIdx s dr idx pt = Except.ok r := by
  unfold processIdx
  cases hc : dr.labels.get? idx with
  | none =>
    exfalso
    have := List.get?_eq_none.mp hc
    omega
  | some cat =>
    dsimp only
    split
    case isTrue hmon =>
      split
      case isTrue hout =>
        obtain ⟨⟨found, s₂⟩, hr⟩ := @hasIn_isOk s pt cat
          (fallbackID dr.IDs dr.labels idx)
          (resolveTag dr cat (fallbackID dr.IDs dr.labels idx)) hh
        rw [hr]
        dsimp only
        split
        case isTrue hfound =>
          have hacc2 : s₂.Accumulator = s.Accumulator := by
            rcases hasIn_ok hr with ⟨_, rfl⟩ | ⟨_, past, j, oldPt, _, _, _, rfl⟩ <;> rfl
          have hsome : (accLookup s₂.Accumulator cat).isSome = true := by
            rw [hacc2]; exact hacc cat hmon
          cases hv : accLookup s₂.Accumulator cat with
          | none => rw [hv] at hsome; exact Bool.noConfusion hsome
          | some v => exact ⟨_, rfl⟩
        case isFalse hfound => exact ⟨_, rfl⟩
      case isFalse hout => exact ⟨_, rfl⟩
    case isFalse hmon => exact ⟨_, rfl⟩

theorem runEntries_isOk {dr : Frame} :
    ∀ (pts : List (ℚ × ℚ)) (idx : ℕ) (s : hitBar),
      idx + pts.length ≤ dr.midPoints.length →
      dr.midPoints.length ≤ dr.labels.length →
      (∀ f ∈ s.history, f.labels.length ≤ f.midPoints.length) →
      (∀ c ∈ s.monitoredCatagories, (accLookup s.Accumulator c).isSome = true) →
      ∃ r, runEntries dr s idx pts = Except.ok r := by
  intro pts
  induction pts with
  | nil => intro idx s _ _ _ _; exact ⟨_, rfl⟩
  | cons pt rest ih =>
    intro idx s harith hml hh hacc
    simp only [List.length_cons] at harith
    simp only [runEntries]
    have hidx : idx < dr.labels.length := by omega
    obtain ⟨s₁, h₁⟩ := @processIdx_isOk s dr idx pt hidx hh hacc
    rw [h₁]
    obtain ⟨hhist, _, _, _, _, _, _, hmon, _, hsome⟩ := processIdx_frame h₁
    exact ih (idx + 1) s₁ (by omega) hml
      (by rw [hhist]; exact hh)
      (fun c hcm => by rw [hsome c]; exact hacc c (hmon ▸ hcm))

theorem update_isOk {s : hitBar} (img : Img) {dr : Frame}
    (hall : ∀ f ∈ s.history ++ [dr], f.labels.length = f.midPoints.length)
    (hacc : ∀ c ∈ s.monitoredCatagories, (accLookup s.Accumulator c).isSome = true) :
    updateOk s img dr = true := by
  have hml : dr.midPoints.length ≤ dr.labels.length := by
    have := hall dr (by simp)
    omega
  obtain ⟨r, hr⟩ := @runEntries_isOk dr dr.midPoints 0
      { s with history := pushHist s.history s.maxLength dr,
               realmIn := recompRealmIn s, realmOut := recompRealmOut s }
      (by simp) hml
      (by
        intro f hf
        have hmem : f ∈ s.history ++ [dr] := (pushHist_suffix s.history s.maxLength dr).subset hf
        exact le_of_eq (hall f hmem))
      hacc
  unfold updateOk hitBar.update
  dsimp only
  rw [hr]

theorem qmin_self (a : ℚ) : qmin a a = a := by unfold qmin; split <;> rfl

theorem qmax_self (a : ℚ) : qmax a a = a := by unfold qmax; split <;> rfl

theorem qmin_comm (a b : ℚ) : qmin a b = qmin b a := by
  unfold qmin
  split
  case isTrue h1 =>
    split
    case isTrue h2 => exact le_antisymm h1 h2
    case isFalse h2 => rfl
  case isFalse h1 =>
    split
    case isTrue h2 => rfl
    case isFalse h2 => exact absurd (le_of_not_le h1) h2

theorem qmax_comm (a b : ℚ) : qmax a b = qmax b a := by
  unfold qmax
  split
  case isTrue h1 =>
    split
    case isTrue h2 => exact le_antisymm h2 h1
    case isFalse h2 => rfl
  case isFalse h1 =>
    split
    case isTrue h2 => rfl
    case isFalse h2 => exact absurd (le_of_not_le h1) h2

/-- A quadrilateral all of whose corners coincide contains exactly that
corner (it is its own boundary, and the even-odd count is always zero). -/
theorem inRealm_collapsed (P p : ℚ × ℚ) : inRealm p ⟨P, P, P, P⟩ = true ↔ p = P := by
  constructor
  · intro h
    have hfalse : edgeCross P P p = false := by
      unfold edgeCross
      simp
    simp only [inRealm, Bool.or_eq_true] at h
    rcases h with h | h
    · have hseg : onSeg P P p = true := by
        simp only [onQuadEdge, Bool.or_eq_true] at h
        rcases h with ((h' | h') | h') | h' <;> exact h'
      simp only [onSeg, qmin, qmax, ite_self, decide_eq_true_eq] at hseg
      obtain ⟨-, h1, h2, h3, h4⟩ := hseg
      exact Prod.ext (le_antisymm h2 h1) (le_antisymm h4 h3)
    · rw [hfalse] at h
      simp at h
  · rintro rfl
    simp only [inRealm, Bool.or_eq_true]
    left
    simp only [onQuadEdge, Bool.or_eq_true]
    left; left; left
    simp only [onSeg, decide_eq_true_eq]
    refine ⟨by ring, ?_, ?_, ?_, ?_⟩ <;> simp [qmin, qmax, ite_self]

theorem recompRealmIn_degenerate {s : hitBar} {P : ℚ × ℚ} (h1 : s.startPoint = P)
    (h2 : s.endPoint = P) (h3 : s.direction = (0, 0)) :
    recompRealmIn s = ⟨P, P, P, P⟩ := by
  simp [recompRealmIn, h1, h2, h3]

theorem recompRealmOut_degenerate {s : hitBar} {P : ℚ × ℚ} (h1 : s.startPoint = P)
    (h2 : s.endPoint = P) (h3 : s.direction = (0, 0)) :
    recompRealmOut s = ⟨P, P, P, P⟩ := by
  simp [recompRealmOut, h1, h2, h3]

theorem runEntries_unchanged {dr : Frame} {P : ℚ × ℚ} :
    ∀ {pts : List (ℚ × ℚ)} {idx : ℕ} {s s' : hitBar},
      s.realmOut = ⟨P, P, P, P⟩ →
      (∀ pt ∈ pts, pt ≠ P) →
      runEntries dr s idx pts = Except.ok s' → s' = s := by
  intro pts
  induction pts with
  | nil =>
    intro idx s s' _ _ h
    simp only [runEntries] at h
    cases h
    rfl
  | cons pt rest ih =>
    intro idx s s' hq hpt h
    simp only [runEntries] at h
    split at h
    case h_1 => exact Except.noConfusion h
    case h_2 s₁ hstep =>
      have hs₁ : s₁ = s := by
        rcases processIdx_cases hstep with rfl | ⟨cat, v, past, j, oldPt, _, _, hout, -⟩
        · rfl
        · rw [hq] at hout
          exact absurd ((inRealm_collapsed P pt).mp hout) (hpt pt (by simp))
      subst hs₁
      exact ih hq (fun x hx => hpt x (by simp [hx])) h

theorem update_degenerate {P : ℚ × ℚ} {s : hitBar} {img : Img} {dr : Frame}
    {s' : hitBar} {io : Img}
    (h1 : s.startPoint = P) (h2 : s.endPoint = P) (h3 : s.direction = (0, 0))
    (hpt : ∀ pt ∈ dr.midPoints, pt ≠ P)
    (h : hitBar.update s img dr = Except.ok (s', io)) :
    s'.startPoint = P ∧ s'.endPoint = P ∧ s'.direction = (0, 0)
    ∧ s'.Accumulator = s.Accumulator ∧ s'.monitoredCatagories = s.monitoredCatagories
    ∧ s'.maxLength = s.maxLength ∧ s'.width = s.width ∧ s'.visualize = s.visualize := by
  unfold hitBar.update at h
  dsimp only at h
  split at h
  case h_1 => exact Except.noConfusion h
  case h_2 s₂ hrun =>
    cases h
    have hrq : ({ s with
        history := pushHist s.history s.maxLength dr
        realmIn := recompRealmIn s
        realmOut := recompRealmOut s } : hitBar).realmOut
        = ⟨P, P, P, P⟩ := by
      dsimp only
      exact recompRealmOut_degenerate h1 h2 h3
    have hs₂ := runEntries_unchanged hrq hpt hrun
    subst hs₂
    exact ⟨h1, h2, h3, rfl, rfl, rfl, rfl, rfl⟩

theorem onSeg_symm {a b p : ℚ × ℚ} (h : onSeg a b p = true) : onSeg b a p = true := by
  simp only [onSeg, decide_eq_true_eq] at h ⊢
  obtain ⟨h0, h1, h2, h3, h4⟩ := h
  refine ⟨by linear_combination -h0, ?_, ?_, ?_, ?_⟩
  · rw [qmin_comm]; exact h1
  · rw [qmax_comm]; exact h2
  · rw [qmin_comm]; exact h3
  · rw [qmax_comm]; exact h4

theorem onQuadEdge_inRealm {p : ℚ × ℚ} {q : Quad} (h : onQuadEdge p q = true) :
    inRealm p q = true := by
  simp [inRealm, h]

/-- Construction with two equal explicit endpoints always succeeds and
lands in the degenerate branch: zero direction, collapsed realms. -/
theorem init_degenerate (imgSize : Option (ℤ × ℤ)) (P : ℤ × ℤ) (name : String)
    (mon : List String) (width : ℚ) (mL : ℤ) (vis : Bool) (L : ℚ) :
    ∃ s₀, hitBar.init imgSize (some P) (some P) name mon width mL vis L = Except.ok s₀
      ∧ s₀.startPoint = ((P.1 : ℚ), (P.2 : ℚ)) ∧ s₀.endPoint = ((P.1 : ℚ), (P.2 : ℚ))
      ∧ s₀.direction = (0, 0) := by
  unfold hitBar.init
  dsimp only
  have hcond : ((P.1 : ℚ) - (P.1 : ℚ) = 0 ∧ (P.2 : ℚ) - (P.2 : ℚ) = 0) :=
    ⟨sub_self _, sub_self _⟩
  simp only [if_pos hcond]
  refine ⟨_, rfl, ?_, ?_, ?_⟩ <;> (split <;> rfl)

theorem hasInScan_allRejected {s : hitBar} {pt : ℚ × ℚ} {cat : String} {objID : ℤ}
    {t : Option ℤ} {past : Frame} (hrej : tagRejected past cat objID t = true) :
    ∀ (rest : List String) (i : ℕ),
      hasInScan s pt cat objID t past i rest = Except.ok (false, s) := by
  intro rest
  induction rest with
  | nil => intro i; simp [hasInScan]
  | cons lb rest ih =>
    intro i
    simp only [hasInScan]
    split
    · split
      · exact ih (i + 1)
      · exact ih (i + 1)
    · exact ih (i + 1)

/-- Whatever frame `_hasIn` finds as the previous one, if the
disambiguator check rejects every candidate then `_hasIn` returns `False`
and leaves the state untouched. -/
theorem hasIn_of_rejected {s : hitBar} {pt : ℚ × ℚ} {cat : String} {objID : ℤ}
    {t : Option ℤ}
    (h : ∀ past, s.history.get? (s.history.length - 2) = some past →
      tagRejected past cat objID t = true) :
    hasIn s pt cat objID t = Except.ok (false, s) := by
  unfold hasIn
  split
  · rfl
  · split
    case h_1 => rfl
    case h_2 past hget =>
      split
      · exact hasInScan_allRejected (h past hget) past.labels 0
      · rfl

theorem runUpdates_degenerate {P : ℚ × ℚ} :
    ∀ (l : List (Img × Frame)) (s s' : hitBar),
      s.startPoint = P → s.endPoint = P → s.direction = (0, 0) →
      (∀ imfr ∈ l, ∀ pt ∈ imfr.2.midPoints, pt ≠ P) →
      runUpdates s l = Except.ok s' →
      s'.Accumulator = s.Accumulator ∧ s'.startPoint = P ∧ s'.endPoint = P
      ∧ s'.direction = (0, 0) := by
  intro l
  induction l with
  | nil =>
    intro s s' h1 h2 h3 _ h
    simp only [runUpdates] at h
    cases h
    exact ⟨rfl, h1, h2, h3⟩
  | cons imfr rest ih =>
    intro s s' h1 h2 h3 hne h
    simp only [runUpdates] at h
    split at h
    case h_1 => exact Except.noConfusion h
    case h_2 r hup =>
      obtain ⟨g1, g2, g3, g4, -⟩ := update_degenerate h1 h2 h3 (hne imfr (by simp)) hup
      obtain ⟨hA, hB, hC, hD⟩ := ih r.1 s' g1 g2 g3 (fun x hx => hne x (by simp [hx])) h
      exact ⟨hA.trans g4, hB, hC, hD⟩

/-! Claim theorems. -/

def degFrame : Frame := ⟨["ball"], [0], [((3 : ℚ), (4 : ℚ))], none⟩

def farFrame : Frame := ⟨["ball"], [0], [((9 : ℚ), (9 : ℚ))], none⟩

unseal Rat.mul Rat.inv Rat.add Rat.sub in
/-- C1 counterexample: a gate built with `startPoint = endPoint = (3, 4)`
and a detection resting exactly at `(3, 4)` in two consecutive frames has
its crossing confirmed — the "ball" counter ends at 1, refuting the claim
that a degenerate gate never confirms any crossing: the collapsed realms
still contain their single point under the boundary-inclusive containment
test. -/
theorem C1_counterexample :
    ((hitBar.init none (some (3, 4)) (some (3, 4)) "demo" ["ball"] 5 50 false 0 >>=
        fun g => runUpdates g
          [(Img.input, degFrame), (Img.input, degFrame)]).toOption.map
      (fun s => accLookup s.Accumulator "ball"))
    = some (some 1) := by decide

/-- C1 (amended): construction with `startPoint = endPoint` never raises,
and as long as no detection position coincides with the degenerate point
itself, no crossing is ever confirmed and the accumulator never changes
over any sequence of update calls. -/
theorem C1_degenerate_no_crossing :
    ∀ (P : ℤ × ℤ) (imgSize : Option (ℤ × ℤ)) (name : String) (mon : List String)
      (width : ℚ) (mL : ℤ) (vis : Bool) (L : ℚ),
      initOk imgSize (some P) (some P) name mon width mL vis L = true
      ∧ ∀ (s₀ s' : hitBar) (l : List (Img × Frame)),
          hitBar.init imgSize (some P) (some P) name mon width mL vis L = Except.ok s₀ →
          (∀ imfr ∈ l, ∀ pt ∈ imfr.2.midPoints, pt ≠ ((P.1 : ℚ), (P.2 : ℚ))) →
          runUpdates s₀ l = Except.ok s' →
          s'.Accumulator = s₀.Accumulator := by
  intro P imgSize name mon width mL vis L
  obtain ⟨s₀, hinit, hst, hen, hdir⟩ := init_degenerate imgSize P name mon width mL vis L
  constructor
  · unfold initOk
    rw [hinit]
  · intro s₁ s' l hinit' hne hrun
    have heq : s₀ = s₁ := Except.ok.inj (hinit.symm.trans hinit')
    subst heq
    exact (runUpdates_degenerate l s₀ s' hst hen hdir hne hrun).1

def degGate : hitBar :=
  { name := "demo", visualize := false, startPoint := (3, 4), endPoint := (3, 4),
    maxLength := 50, width := 5, direction := (0, 0),
    realmIn := ⟨(3, 4), (3, 4), (3, 4), (3, 4)⟩,
    realmOut := ⟨(3, 4), (3, 4), (3, 4), (3, 4)⟩,
    history := [], Accumulator := [("ball", 0)], monitoredCatagories := ["ball"] }

unseal Rat.mul Rat.inv Rat.add Rat.sub in
/-- C1 witness: the amended theorem applied to the degenerate gate at
`(3, 4)` and one update whose detection sits away from the point. -/
theorem C1_witness :
    initOk none (some (3, 4)) (some (3, 4)) "demo" ["ball"] 5 50 false 0 = true
    ∧ ({ degGate with history := [farFrame] } : hitBar).Accumulator = degGate.Accumulator :=
  ⟨(C1_degenerate_no_crossing (3, 4) none "demo" ["ball"] 5 50 false 0).1,
   (C1_degenerate_no_crossing (3, 4) none "demo" ["ball"] 5 50 false 0).2 degGate
     { degGate with history := [farFrame] } [(Img.input, farFrame)]
     (by rfl) (by decide) (by rfl)⟩

unseal Rat.mul Rat.inv Rat.add Rat.sub in
/-- C2: evaluating `update` on a gate constructed with `visualize = False`
shows the returned image is not the unmodified input — the two realm fills
are alpha-blended into it unconditionally; only the centerline draw is
guarded by the flag.  This contradicts the method's own docstring, which
says `visualize` decides whether the bar and realms are drawn. -/
theorem C2_visualize_off_still_blends :
    ((hitBar.init none (some (0, 0)) (some (10, 0)) "hb" ["ball"] 5 50 false 10 >>=
        fun g => hitBar.update g Img.input ⟨[], [], [], none⟩).toOption.map
      (fun r => decide (r.2 = Img.input)))
    = some false := by decide

unseal Rat.mul Rat.inv Rat.add Rat.sub in
/-- C3 counterexample: the current entry resolves disambiguator tag 7, the
previous frame has no side mapping at all, and yet the crossing is
confirmed (counter reaches 1) instead of being rejected as the claim
demands. -/
theorem C3_counterexample :
    ((hitBar.init none (some (0, 0)) (some (10, 0)) "hb" ["ball"] 5 50 false 10 >>=
        fun g => runUpdates g
          [(Img.input, ⟨["ball"], [0], [((5 : ℚ), (-2 : ℚ))], none⟩),
           (Img.input, ⟨["ball"], [0], [((5 : ℚ), (2 : ℚ))],
             some [("ball", [(0, 7)])]⟩)]).toOption.map
      (fun s => accLookup s.Accumulator "ball"))
    = some (some 1) := by decide

/-- C3 (amended): when the current entry has a resolved disambiguator tag
and the preceding frame does have a side mapping, a match is confirmed
only if that mapping records the same tag for the identity: if the tag
list for the identity is empty or its first entry differs, `_hasIn`
returns false and leaves the state unchanged.  (When the earlier frame has
no side mapping at all the check is skipped, not rejected — see the
counterexample.) -/
theorem C3_tag_mismatch_rejected :
    ∀ (s : hitBar) (pt : ℚ × ℚ) (cat : String) (objID : ℤ) (t : ℤ) (past : Frame)
      (np : List (String × List (ℤ × ℤ))),
      s.history.get? (s.history.length - 2) = some past →
      past.numProjection = some np →
      (tagArr np cat objID).head? ≠ some t →
      hasIn s pt cat objID (some t) = Except.ok (false, s) := by
  intro s pt cat objID t past np hget hnp hhead
  apply hasIn_of_rejected
  intro past' hget'
  rw [hget'] at hget
  have heq : past' = past := Option.some.inj hget
  subst heq
  simp [tagRejected, hnp, hhead]

def c3PastF : Frame := ⟨["ball"], [0], [((5 : ℚ), (-2 : ℚ))], some [("ball", [(0, 9)])]⟩

def c3CurF : Frame := ⟨["ball"], [0], [((5 : ℚ), (2 : ℚ))], some [("ball", [(0, 7)])]⟩

def c3Gate : hitBar :=
  { name := "hb", visualize := false, startPoint := (0, 0), endPoint := (10, 0),
    maxLength := 50, width := 5, direction := (0, 1),
    realmIn := ⟨(0, -5), (10, -5), (10, 0), (0, 0)⟩,
    realmOut := ⟨(0, 5), (10, 5), (10, 0), (0, 0)⟩,
    history := [c3PastF, c3CurF], Accumulator := [("ball", 0)],
    monitoredCatagories := ["ball"] }

/-- C3 witness: the previous frame records tag 9 for identity 0 while the
current entry carries tag 7, so the match is rejected. -/
theorem C3_witness :
    hasIn c3Gate ((5 : ℚ), (2 : ℚ)) "ball" 0 (some 7) = Except.ok (false, c3Gate) :=
  C3_tag_mismatch_rejected c3Gate ((5 : ℚ), (2 : ℚ)) "ball" 0 7 c3PastF
    [("ball", [(0, 9)])] (by rfl) (by rfl) (by decide)

unseal Rat.mul Rat.inv Rat.add Rat.sub in
/-- C4 counterexample: a frame whose `midPoints` list is longer than its
`labels` list makes `update` raise (`labels[idx]` is an out-of-range
index), refuting the claim that every detection-frame input is handled by
silent fallbacks. -/
theorem C4_counterexample :
    ((hitBar.init none (some (0, 0)) (some (10, 0)) "hb" ["ball"] 5 50 false 10).toOption.map
      (fun g => updateOk g Img.input ⟨[], [], [((0 : ℚ), (0 : ℚ))], none⟩))
    = some false := by decide

/-- C4 (amended): `update` runs to completion without raising whenever
every frame (retained history and the incoming one) has label and
midpoint lists of equal length and every monitored category has an
accumulator entry — the invariant maintained by construction and
`_monitor`.  Identity-list mismatch, missing disambiguators, a missing
previous frame and a degenerate bar are all handled silently; a midpoint
list longer than the label list is not. -/
theorem C4_update_no_raise :
    ∀ (s : hitBar) (img : Img) (dr : Frame),
      (∀ f ∈ s.history ++ [dr], f.labels.length = f.midPoints.length) →
      (∀ c ∈ s.monitoredCatagories, (accLookup s.Accumulator c).isSome = true) →
      updateOk s img dr = true :=
  fun _ img _ hall hacc => update_isOk img hall hacc

def c4Gate : hitBar :=
  { name := "hb", visualize := true, startPoint := (0, 0), endPoint := (10, 0),
    maxLength := 50, width := 5, direction := (0, 1),
    realmIn := ⟨(0, 0), (10, 0), (10, -5), (0, -5)⟩,
    realmOut := ⟨(0, 0), (10, 0), (10, 5), (0, 5)⟩,
    history := [], Accumulator := [("ball", 0)], monitoredCatagories := ["ball"] }

/-- C4 witness: a well-formed frame (equal-length lists, monitored
category has a counter) is processed without raising. -/
theorem C4_witness :
    updateOk c4Gate Img.input ⟨["ball"], [0], [((1 : ℚ), (1 : ℚ))], none⟩ = true :=
  C4_update_no_raise c4Gate Img.input ⟨["ball"], [0], [((1 : ℚ), (1 : ℚ))], none⟩
    (by decide) (by decide)

unseal Rat.mul Rat.inv Rat.add Rat.sub in
/-- C5 counterexample: with `maxLength = -1` a single update leaves the
history at length 0, which is strictly greater than the bound, refuting
the claim for every `maxLength` value. -/
theorem C5_counterexample :
    ((hitBar.init none (some (0, 0)) (some (1, 0)) "hb" [] 5 (-1) false 1 >>=
        fun g => hitBar.update g Img.input ⟨[], [], [], none⟩).toOption.map
      (fun r => decide ((r.1.history.length : ℤ) ≤ r.1.maxLength)))
    = some false := by decide

/-- C5 (amended): each update appends the frame and evicts only from the
front (the new history is a suffix of the old one extended by the frame),
`maxLength` never changes, and for every nonnegative `maxLength` the bound
`len(history) ≤ maxLength` is preserved by every update and hence holds
after any finite sequence of update calls started below the bound. -/
theorem C5_history_bound :
    (∀ (s : hitBar) (img : Img) (dr : Frame) (s' : hitBar) (io : Img),
        hitBar.update s img dr = Except.ok (s', io) →
        s'.maxLength = s.maxLength
        ∧ List.IsSuffix s'.history (s.history ++ [dr])
        ∧ ((s.history.length : ℤ) ≤ s.maxLength → (s'.history.length : ℤ) ≤ s'.maxLength))
    ∧ (∀ (s : hitBar) (l : List (Img × Frame)) (s' : hitBar),
        0 ≤ s.maxLength → (s.history.length : ℤ) ≤ s.maxLength →
        runUpdates s l = Except.ok s' →
        (s'.history.length : ℤ) ≤ s'.maxLength) := by
  have single : ∀ (s : hitBar) (img : Img) (dr : Frame) (s' : hitBar) (io : Img),
      hitBar.update s img dr = Except.ok (s', io) →
      s'.maxLength = s.maxLength ∧ List.IsSuffix s'.history (s.history ++ [dr])
      ∧ ((s.history.length : ℤ) ≤ s.maxLength → (s'.history.length : ℤ) ≤ s'.maxLength) := by
    intro s img dr s' io h
    obtain ⟨-, hhist, -, -, -, -, hmax, -, -, -, -⟩ := update_ok_spec h
    refine ⟨hmax, ?_, ?_⟩
    · rw [hhist]
      exact pushHist_suffix _ _ _
    · intro hlen
      rw [hhist, hmax]
      exact pushHist_length_le _ hlen
  refine ⟨single, ?_⟩
  intro s l
  induction l generalizing s with
  | nil =>
    intro s' _ hlen h
    simp only [runUpdates] at h
    cases h
    exact hlen
  | cons imfr rest ih =>
    intro s' hm hlen h
    simp only [runUpdates] at h
    split at h
    case h_1 => exact Except.noConfusion h
    case h_2 r hup =>
      obtain ⟨hmax, -, hbound⟩ := single s imfr.1 imfr.2 r.1 r.2 hup
      exact ih r.1 s' (by rw [hmax]; exact hm) (hbound hlen) h

def c5Gate : hitBar :=
  { name := "w", visualize := false, startPoint := (0, 0), endPoint := (0, 0),
    maxLength := 1, width := 5, direction := (0, 0),
    realmIn := ⟨(0, 0), (0, 0), (0, 0), (0, 0)⟩,
    realmOut := ⟨(0, 0), (0, 0), (0, 0), (0, 0)⟩,
    history := [], Accumulator := [], monitoredCatagories := [] }

def c5Frame : Frame := ⟨[], [], [], none⟩

unseal Rat.mul Rat.inv Rat.add Rat.sub in
/-- C5 witness: two updates on a gate with `maxLength = 1` leave the
history at length 1, within the bound. -/
theorem C5_witness :
    0 ≤ c5Gate.maxLength ∧ (c5Gate.history.length : ℤ) ≤ c5Gate.maxLength
    ∧ (({ c5Gate with history := [c5Frame] } : hitBar).history.length : ℤ)
        ≤ ({ c5Gate with history := [c5Frame] } : hitBar).maxLength :=
  ⟨by decide, by decide,
   C5_history_bound.2 c5Gate [(Img.input, c5Frame), (Img.input, c5Frame)]
     { c5Gate with history := [c5Frame] } (by decide) (by decide) (by rfl)⟩

/-- C6: `_monitor` is idempotent — a second call with the same name leaves
the accumulator exactly as after the first call and the monitored set
(membership) unchanged — and monitoring never changes the counter of any
category already present in the accumulator, in particular it never
resets a non-zero counter. -/
theorem C6_monitor_idempotent :
    ∀ (s : hitBar) (c : String),
      (hitBar.monitor (hitBar.monitor s [c]) [c]).Accumulator
        = (hitBar.monitor s [c]).Accumulator
      ∧ (∀ x, x ∈ (hitBar.monitor (hitBar.monitor s [c]) [c]).monitoredCatagories
            ↔ x ∈ (hitBar.monitor s [c]).monitoredCatagories)
      ∧ (∀ (cats : List String) (c' : String) (v : ℤ),
          accLookup s.Accumulator c' = some v →
          accLookup (hitBar.monitor s cats).Accumulator c' = some v) := by
  intro s c
  refine ⟨?_, ?_, ?_⟩
  · simp only [hitBar.monitor, List.foldl_cons, List.foldl_nil]
    have hsome : (accLookup
        (if (accLookup s.Accumulator c).isSome then s.Accumulator
         else s.Accumulator ++ [(c, 0)]) c).isSome = true := by
      split
      case isTrue h => exact h
      case isFalse h =>
        rw [accLookup_append_new (Option.not_isSome_iff_eq_none.mp h)]
        rfl
    rw [if_pos hsome]
  · intro x
    simp only [hitBar.monitor, List.mem_dedup, List.mem_append]
    tauto
  · intro cats c' v hv
    simp only [hitBar.monitor]
    exact accLookup_monitorFold cats s.Accumulator hv

def c6Gate : hitBar :=
  { name := "hb", visualize := true, startPoint := (0, 0), endPoint := (10, 0),
    maxLength := 50, width := 5, direction := (0, 1),
    realmIn := ⟨(0, 0), (10, 0), (10, -5), (0, -5)⟩,
    realmOut := ⟨(0, 0), (10, 0), (10, 5), (0, 5)⟩,
    history := [], Accumulator := [("ball", 3)], monitoredCatagories := ["ball"] }

/-- C6 witness: monitoring "person" on a gate whose "ball" counter is 3
keeps that counter at 3, and the second identical call changes nothing. -/
theorem C6_witness :
    accLookup (hitBar.monitor c6Gate ["person"]).Accumulator "ball" = some 3
    ∧ (hitBar.monitor (hitBar.monitor c6Gate ["person"]) ["person"]).Accumulator
        = (hitBar.monitor c6Gate ["person"]).Accumulator :=
  ⟨(C6_monitor_idempotent c6Gate "person").2.2 ["person"] "ball" 3 (by decide),
   (C6_monitor_idempotent c6Gate "person").1⟩

/-- C7: processing one detection entry either leaves both the direction
and the accumulator unchanged, or — exactly when the crossing is
confirmed — increments the entry's category counter by exactly 1 (all
other counters untouched) and replaces `direction` by half the sum of the
old direction and the displacement from the matched earlier position to
the current one, with no re-normalization; and `_monitor`, the only other
mutator after construction, never touches the direction. -/
theorem C7_crossing_effects :
    (∀ (s : hitBar) (cats : List String), (hitBar.monitor s cats).direction = s.direction)
    ∧ (∀ (s : hitBar) (dr : Frame) (idx : ℕ) (pt : ℚ × ℚ) (s' : hitBar),
        processIdx s dr idx pt = Except.ok s' →
        (s'.direction = s.direction ∧ s'.Accumulator = s.Accumulator)
        ∨ (∃ cat v past j oldPt,
            dr.labels.get? idx = some cat ∧ cat ∈ s.monitoredCatagories
            ∧ s.history.get? (s.history.length - 2) = some past
            ∧ past.midPoints.get? j = some oldPt
            ∧ inRealm pt s.realmOut = true ∧ inRealm oldPt s.realmIn = true
            ∧ s'.direction = blendDir s pt oldPt
            ∧ accLookup s.Accumulator cat = some v
            ∧ accLookup s'.Accumulator cat = some (v + 1)
            ∧ ∀ c, c ≠ cat → accLookup s'.Accumulator c = accLookup s.Accumulator c)) := by
  constructor
  · intro s cats
    rfl
  · intro s dr idx pt s' h
    rcases processIdx_cases h with rfl |
      ⟨cat, v, past, j, oldPt, hcat, hmon, hout, hget, hj, hin, hv, rfl⟩
    · exact Or.inl ⟨rfl, rfl⟩
    · refine Or.inr ⟨cat, v, past, j, oldPt, hcat, hmon, hget, hj, hout, hin, rfl, hv, ?_, ?_⟩
      · exact accLookup_accSet_self (v + 1) hv
      · intro c hc
        exact accLookup_accSet_ne _ _ _ hc

def c7Past : Frame := ⟨["ball"], [0], [((5 : ℚ), (-2 : ℚ))], none⟩

def c7Cur : Frame := ⟨["ball"], [0], [((5 : ℚ), (2 : ℚ))], none⟩

def c7Gate : hitBar :=
  { name := "hb", visualize := false, startPoint := (0, 0), endPoint := (10, 0),
    maxLength := 50, width := 5, direction := (0, 1),
    realmIn := ⟨(0, -5), (10, -5), (10, 0), (0, 0)⟩,
    realmOut := ⟨(0, 5), (10, 5), (10, 0), (0, 0)⟩,
    history := [c7Past, c7Cur], Accumulator := [("ball", 0)],
    monitoredCatagories := ["ball"] }

def c7Gate' : hitBar :=
  { c7Gate with direction := (0, 5 / 2), Accumulator := [("ball", 1)] }

unseal Rat.mul Rat.inv Rat.add Rat.sub in
/-- C7 witness: a concrete confirmed crossing (ball moving from (5, -2)
into (5, 2) across a horizontal bar) satisfies the dichotomy. -/
theorem C7_witness :
    (c7Gate'.direction = c7Gate.direction ∧ c7Gate'.Accumulator = c7Gate.Accumulator)
    ∨ (∃ cat v past j oldPt,
        c7Cur.labels.get? 0 = some cat ∧ cat ∈ c7Gate.monitoredCatagories
        ∧ c7Gate.history.get? (c7Gate.history.length - 2) = some past
        ∧ past.midPoints.get? j = some oldPt
        ∧ inRealm ((5 : ℚ), (2 : ℚ)) c7Gate.realmOut = true
        ∧ inRealm oldPt c7Gate.realmIn = true
        ∧ c7Gate'.direction = blendDir c7Gate ((5 : ℚ), (2 : ℚ)) oldPt
        ∧ accLookup c7Gate.Accumulator cat = some v
        ∧ accLookup c7Gate'.Accumulator cat = some (v + 1)
        ∧ ∀ c, c ≠ cat → accLookup c7Gate'.Accumulator c = accLookup c7Gate.Accumulator c) :=
  C7_crossing_effects.2 c7Gate c7Cur 0 ((5 : ℚ), (2 : ℚ)) c7Gate' (by rfl)

/-- C8: the containment primitive is boundary-inclusive — any point on an
edge of either realm quadrilateral (as recomputed by `update`) is reported
inside it, and a point exactly on the centerline segment lies on the
shared edge of the two recomputed realms and is reported inside both by
the same test. -/
theorem C8_boundary_inclusive :
    ∀ (s : hitBar) (img : Img) (dr : Frame) (s' : hitBar) (io : Img),
      s.startPoint ≠ s.endPoint →
      hitBar.update s img dr = Except.ok (s', io) →
      (∀ p, onQuadEdge p s'.realmIn = true → inRealm p s'.realmIn = true)
      ∧ (∀ p, onQuadEdge p s'.realmOut = true → inRealm p s'.realmOut = true)
      ∧ (∀ p, onSeg s.startPoint s.endPoint p = true →
          inRealm p s'.realmIn = true ∧ inRealm p s'.realmOut = true) := by
  intro s img dr s' io hne h
  obtain ⟨-, -, -, -, hrin, hrout, -, -, -, -, -⟩ := update_ok_spec h
  refine ⟨fun p hp => onQuadEdge_inRealm hp, fun p hp => onQuadEdge_inRealm hp, ?_⟩
  intro p hp
  have hp' := onSeg_symm hp
  constructor
  · apply onQuadEdge_inRealm
    rw [hrin]
    simp only [recompRealmIn, onQuadEdge, hp', Bool.or_true, Bool.true_or]
  · apply onQuadEdge_inRealm
    rw [hrout]
    simp only [recompRealmOut, onQuadEdge, hp', Bool.or_true, Bool.true_or]

def c8Gate : hitBar :=
  { name := "hb", visualize := false, startPoint := (0, 0), endPoint := (2, 0),
    maxLength := 50, width := 1, direction := (0, 1),
    realmIn := ⟨(0, 0), (2, 0), (2, -1), (0, -1)⟩,
    realmOut := ⟨(0, 0), (2, 0), (2, 1), (0, 1)⟩,
    history := [], Accumulator := [], monitoredCatagories := [] }

def c8Frame : Frame := ⟨[], [], [], none⟩

def c8Gate' : hitBar :=
  { c8Gate with
    history := [c8Frame]
    realmIn := ⟨(0, -1), (2, -1), (2, 0), (0, 0)⟩
    realmOut := ⟨(0, 1), (2, 1), (2, 0), (0, 0)⟩ }

def c8Img : Img :=
  Img.addWeighted
    (Img.fillPoly (Img.fillPoly Img.input ⟨(0, -1), (2, -1), (2, 0), (0, 0)⟩ (0, 0, 255, 100))
      ⟨(0, 1), (2, 1), (2, 0), (0, 0)⟩ (255, 0, 0, 100))
    (2 / 5) Img.input (1 - 2 / 5) 0

unseal Rat.mul Rat.inv Rat.add Rat.sub in
/-- C8 witness: the midpoint (1, 0) of the bar from (0, 0) to (2, 0) is
reported inside both recomputed realms. -/
theorem C8_witness :
    inRealm ((1 : ℚ), (0 : ℚ)) c8Gate'.realmIn = true
    ∧ inRealm ((1 : ℚ), (0 : ℚ)) c8Gate'.realmOut = true :=
  (C8_boundary_inclusive c8Gate Img.input c8Frame c8Gate' c8Img (by decide) (by rfl)).2.2
    ((1 : ℚ), (0 : ℚ)) (by decide)

unseal Rat.mul Rat.inv Rat.add Rat.sub in
/-- C9: two duplicate detections in the same frame — same monitored
category, same identity, same disambiguator tag, same position inside
`realmOut` — are each processed independently and the counter is
incremented by 2 after a single update. -/
theorem C9_duplicate_double_count :
    ((hitBar.init none (some (0, 0)) (some (10, 0)) "hb" ["ball"] 5 50 false 10 >>=
        fun g => runUpdates g
          [(Img.input, ⟨["ball"], [0], [((5 : ℚ), (-2 : ℚ))], some [("ball", [(0, 5)])]⟩),
           (Img.input, ⟨["ball", "ball"], [0, 0], [((5 : ℚ), (2 : ℚ)), ((5 : ℚ), (2 : ℚ))],
             some [("ball", [(0, 5)])]⟩)]).toOption.map
      (fun s => accLookup s.Accumulator "ball"))
    = some (some 2) := by decide

/-- C10: when exactly one of the two endpoints is supplied, construction
ignores it — both endpoints are defaulted to the horizontal line through
the vertical midpoint of the reference size — and the same path raises
when no reference size is available. -/
theorem C10_default_endpoints :
    ∀ (h w : ℤ) (sp ep : Option (ℤ × ℤ)) (name : String) (mon : List String)
      (width : ℚ) (mL : ℤ) (vis : Bool) (L : ℚ),
      (sp = none ∧ ep ≠ none) ∨ (sp ≠ none ∧ ep = none) →
      (hitBar.init (some (h, w)) sp ep name mon width mL vis L).toOption.map
          (fun s => (s.startPoint, s.endPoint))
        = some ((((0 : ℤ) : ℚ), ((Int.fdiv h 2 : ℤ) : ℚ)),
                ((w : ℚ), ((Int.fdiv h 2 : ℤ) : ℚ)))
      ∧ hitBar.init none sp ep name mon width mL vis L = Except.error () := by
  intro h w sp ep name mon width mL vis L hcase
  rcases hcase with ⟨rfl, hep⟩ | ⟨hsp, rfl⟩
  · constructor
    · unfold hitBar.init
      dsimp only
      split <;> split <;> rfl
    · rfl
  · obtain ⟨p, rfl⟩ := Option.ne_none_iff_exists'.mp hsp
    constructor
    · unfold hitBar.init
      dsimp only
      split <;> split <;> rfl
    · rfl

/-- C10 witness: reference size (600, 800) with only a start point given
yields the default bar from (0, 300) to (800, 300), and the same call
without a reference size raises. -/
theorem C10_witness :
    (hitBar.init (some (600, 800)) (some (200, 150)) none "hb" [] 5 50 true 0).toOption.map
        (fun s => (s.startPoint, s.endPoint))
      = some (((0 : ℚ), (300 : ℚ)), ((800 : ℚ), (300 : ℚ)))
    ∧ hitBar.init none (some (200, 150)) none "hb" [] 5 50 true 0 = Except.error () := by
  have h := C10_default_endpoints 600 800 (some (200, 150)) none "hb" [] 5 50 true 0
    (Or.inr ⟨by simp, rfl⟩)
  exact ⟨h.1.trans (by decide), h.2⟩
